import Mathlib

set_option maxRecDepth 1000000

/-!
Shallow embedding of the merkle-subscription repository (Rust backend +
Solana Anchor program) and proofs about its specification claims.

Bytes are modelled as `Nat` values (< 256 where it matters), byte strings as
`List Nat`.  The SHA-256 function is implemented in full (FIPS 180-4), since
the repository hashes with `sha2::Sha256` in both the backend
(`src/backend/src/merkle/tree.rs`) and the on-chain program
(`src/merkle-program/programs/merkle-program/src/instructions/verify.rs`).
All definitions are structural recursions (fuelled where the Rust loop is
unbounded), so every concrete instance evaluates by kernel reduction.
-/

namespace MerkleSub

/-! ## 32-bit words -/

/-- Truncation to a 32-bit word, the wrap-around of Rust `u32` arithmetic. -/
def w32 (n : Nat) : Nat := n % 4294967296

/-- Right rotation of a 32-bit word by `n` bits. -/
def rotr32 (n x : Nat) : Nat := w32 ((x >>> n) ||| (x <<< (32 - n)))

/-- Bitwise complement of a 32-bit word. -/
def not32 (x : Nat) : Nat := x ^^^ 4294967295

/-! ## SHA-256 (FIPS 180-4), as computed by the `sha2` crate -/

/-- SHA-256 choice function `Ch(x,y,z)`. -/
def shaCh (x y z : Nat) : Nat := (x &&& y) ^^^ (not32 x &&& z)

/-- SHA-256 majority function `Maj(x,y,z)`. -/
def shaMaj (x y z : Nat) : Nat := (x &&& y) ^^^ (x &&& z) ^^^ (y &&& z)

/-- SHA-256 big sigma 0. -/
def bigS0 (x : Nat) : Nat := rotr32 2 x ^^^ rotr32 13 x ^^^ rotr32 22 x

/-- SHA-256 big sigma 1. -/
def bigS1 (x : Nat) : Nat := rotr32 6 x ^^^ rotr32 11 x ^^^ rotr32 25 x

/-- SHA-256 small sigma 0. -/
def smallS0 (x : Nat) : Nat := rotr32 7 x ^^^ rotr32 18 x ^^^ (x >>> 3)

/-- SHA-256 small sigma 1. -/
def smallS1 (x : Nat) : Nat := rotr32 17 x ^^^ rotr32 19 x ^^^ (x >>> 10)

/-- The 64 SHA-256 round constants. -/
def shaK : List Nat :=
  [1116352408, 1899447441, 3049323471, 3921009573, 961987163,
   1508970993, 2453635748, 2870763221, 3624381080, 310598401,
   607225278, 1426881987, 1925078388, 2162078206, 2614888103,
   3248222580, 3835390401, 4022224774, 264347078, 604807628,
   770255983, 1249150122, 1555081692, 1996064986, 2554220882,
   2821834349, 2952996808, 3210313671, 3336571891, 3584528711,
   113926993, 338241895, 666307205, 773529912, 1294757372,
   1396182291, 1695183700, 1986661051, 2177026350, 2456956037,
   2730485921, 2820302411, 3259730800, 3345764771, 3516065817,
   3600352804, 4094571909, 275423344, 430227734, 506948616,
   659060556, 883997877, 958139571, 1322822218, 1537002063,
   1747873779, 1955562222, 2024104815, 2227730452, 2361852424,
   2428436474, 2756734187, 3204031479, 3329325298]

/-- Big-endian 8-byte encoding of a (bit-length) counter. -/
def beBytes8 (n : Nat) : List Nat :=
  [(n >>> 56) % 256, (n >>> 48) % 256, (n >>> 40) % 256, (n >>> 32) % 256,
   (n >>> 24) % 256, (n >>> 16) % 256, (n >>> 8) % 256, n % 256]

/-- SHA-256 padding: append `0x80`, zero bytes, and the 64-bit big-endian
bit length, reaching a multiple of 64 bytes. -/
def padMessage (msg : List Nat) : List Nat :=
  msg ++ [0x80] ++ List.replicate ((55 + 64 - msg.length % 64) % 64) 0
      ++ beBytes8 (8 * msg.length)

/-- Split a byte list into 64-byte blocks.  The fuel argument makes the
recursion structural; `toBlocks` supplies enough fuel for any input. -/
def toBlocksAux : Nat → List Nat → List (List Nat)
  | 0, _ => []
  | _, [] => []
  | fuel + 1, b :: rest => (b :: rest).take 64 :: toBlocksAux fuel ((b :: rest).drop 64)

/-- Split a byte list into 64-byte blocks. -/
def toBlocks (l : List Nat) : List (List Nat) := toBlocksAux l.length l

/-- Big-endian 32-bit word number `i` of a 64-byte block. -/
def beWord (b : List Nat) (i : Nat) : Nat :=
  (b.getD (4 * i) 0) <<< 24 ||| (b.getD (4 * i + 1) 0) <<< 16 |||
  (b.getD (4 * i + 2) 0) <<< 8 ||| b.getD (4 * i + 3) 0

/-- The first 16 words of the message schedule of a block. -/
def blockWords (b : List Nat) : List Nat := (List.range 16).map (beWord b)

/-- Extend the message schedule by `n` further words. -/
def extendW (ws : List Nat) : Nat → List Nat
  | 0 => ws
  | n + 1 =>
    extendW (ws ++ [w32 (smallS1 (ws.getD (ws.length - 2) 0) + ws.getD (ws.length - 7) 0
      + smallS0 (ws.getD (ws.length - 15) 0) + ws.getD (ws.length - 16) 0)]) n

/-- The full 64-word message schedule of a block. -/
def msgSchedule (b : List Nat) : List Nat := extendW (blockWords b) 48

/-- The eight SHA-256 working variables. -/
structure ShaState where
  a : Nat
  b : Nat
  c : Nat
  d : Nat
  e : Nat
  f : Nat
  g : Nat
  h : Nat

/-- The SHA-256 initial hash value. -/
def shaInit : ShaState :=
  ⟨1779033703, 3144134277, 1013904242, 2773480762,
   1359893119, 2600822924, 528734635, 1541459225⟩

/-- One SHA-256 compression round with round constant `kt` and schedule
word `wt`. -/
def shaRound (s : ShaState) (kw : Nat × Nat) : ShaState :=
  ⟨w32 (w32 (s.h + bigS1 s.e + shaCh s.e s.f s.g + kw.1 + kw.2)
      + w32 (bigS0 s.a + shaMaj s.a s.b s.c)),
   s.a, s.b, s.c,
   w32 (s.d + w32 (s.h + bigS1 s.e + shaCh s.e s.f s.g + kw.1 + kw.2)),
   s.e, s.f, s.g⟩

/-- Compress one 64-byte block into the running state. -/
def compressBlock (s : ShaState) (blk : List Nat) : ShaState :=
  match (shaK.zip (msgSchedule blk)).foldl shaRound s with
  | ⟨a, b, c, d, e, f, g, h⟩ =>
    ⟨w32 (s.a + a), w32 (s.b + b), w32 (s.c + c), w32 (s.d + d),
     w32 (s.e + e), w32 (s.f + f), w32 (s.g + g), w32 (s.h + h)⟩

/-- Big-endian bytes of one 32-bit word. -/
def wordBE (x : Nat) : List Nat :=
  [(x >>> 24) % 256, (x >>> 16) % 256, (x >>> 8) % 256, x % 256]

/-- SHA-256 of a byte list: the digest as 32 bytes.  This is
`Sha256Hasher::hash` from both `tree.rs` and `verify.rs` (each defines the
same hasher over `sha2::Sha256`). -/
def sha256 (msg : List Nat) : List Nat :=
  match (toBlocks (padMessage msg)).foldl compressBlock shaInit with
  | ⟨a, b, c, d, e, f, g, h⟩ =>
    wordBE a ++ wordBE b ++ wordBE c ++ wordBE d ++
    wordBE e ++ wordBE f ++ wordBE g ++ wordBE h

/-- A SHA-256 digest has 32 bytes. -/
theorem sha256_length (msg : List Nat) : (sha256 msg).length = 32 := by
  unfold sha256
  match (toBlocks (padMessage msg)).foldl compressBlock shaInit with
  | ⟨a, b, c, d, e, f, g, h⟩ => rfl

/-- Every byte of a SHA-256 digest is below 256. -/
theorem sha256_lt (msg : List Nat) : ∀ x ∈ sha256 msg, x < 256 := by
  unfold sha256
  match (toBlocks (padMessage msg)).foldl compressBlock shaInit with
  | ⟨a, b, c, d, e, f, g, h⟩ =>
    intro x hx
    simp only [wordBE, List.mem_append, List.mem_cons, List.not_mem_nil, or_false] at hx
    omega

/-- FIPS 180-4 test vector: SHA-256 of the empty message. -/
theorem sha256_empty_vector :
    sha256 [] =
      [0xe3, 0xb0, 0xc4, 0x42, 0x98, 0xfc, 0x1c, 0x14, 0x9a, 0xfb, 0xf4, 0xc8,
       0x99, 0x6f, 0xb9, 0x24, 0x27, 0xae, 0x41, 0xe4, 0x64, 0x9b, 0x93, 0x4c,
       0xa4, 0x95, 0x99, 0x1b, 0x78, 0x52, 0xb8, 0x55] := by decide

/-- FIPS 180-4 test vector: SHA-256 of the three bytes of the string
consisting of the letters a, b, c. -/
theorem sha256_abc_vector :
    sha256 [0x61, 0x62, 0x63] =
      [0xba, 0x78, 0x16, 0xbf, 0x8f, 0x01, 0xcf, 0xea, 0x41, 0x41, 0x40, 0xde,
       0x5d, 0xae, 0x22, 0x23, 0xb0, 0x03, 0x61, 0xa3, 0x96, 0x17, 0x7a, 0x9c,
       0xb4, 0x10, 0xff, 0x61, 0xf2, 0x00, 0x15, 0xad] := by decide

/-! ## Byte strings

Rust `String` values (wallet addresses, hex-encoded roots) are UTF-8 byte
sequences; we model them as their byte sequence `List Nat`.  Rust's
`String`/`str` `Ord` instance is exactly lexicographic byte order, which is
`bytesLt` below. -/

/-- Lexicographic strict order on byte strings, Rust's `Ord` for `String`
and `[u8]`. -/
def bytesLt : List Nat → List Nat → Bool
  | [], [] => false
  | [], _ :: _ => true
  | _ :: _, [] => false
  | a :: as, b :: bs => if a < b then true else if b < a then false else bytesLt as bs

/-- Non-strict lexicographic order on byte strings. -/
def bytesLe (a b : List Nat) : Bool := !bytesLt b a

theorem bytesLt_irrefl : ∀ a, bytesLt a a = false
  | [] => rfl
  | x :: xs => by simp [bytesLt, bytesLt_irrefl xs]

theorem bytesLt_asymm : ∀ a b, bytesLt a b = true → bytesLt b a = false
  | [], [], _ => rfl
  | [], _ :: _, _ => rfl
  | _ :: _, [], h => by simp [bytesLt] at h
  | a :: as, b :: bs, h => by
    simp only [bytesLt] at h ⊢
    rcases Nat.lt_trichotomy a b with hab | hab | hab
    · simp [hab, Nat.not_lt_of_lt hab]
    · subst hab
      simp only [Nat.lt_irrefl, if_false] at h ⊢
      exact bytesLt_asymm as bs h
    · simp [hab, Nat.not_lt_of_lt hab] at h

theorem bytesLt_trichotomy : ∀ a b, bytesLt a b = true ∨ a = b ∨ bytesLt b a = true
  | [], [] => Or.inr (Or.inl rfl)
  | [], _ :: _ => Or.inl rfl
  | _ :: _, [] => Or.inr (Or.inr rfl)
  | a :: as, b :: bs => by
    rcases Nat.lt_trichotomy a b with hab | hab | hab
    · exact Or.inl (by simp [bytesLt, hab])
    · subst hab
      rcases bytesLt_trichotomy as bs with h | h | h
      · exact Or.inl (by simp [bytesLt, h])
      · exact Or.inr (Or.inl (by rw [h]))
      · exact Or.inr (Or.inr (by simp [bytesLt, h]))
    · exact Or.inr (Or.inr (by simp [bytesLt, hab]))

theorem bytesLt_trans : ∀ a b c, bytesLt a b = true → bytesLt b c = true →
    bytesLt a c = true
  | [], _, _ :: _, _, _ => rfl
  | [], b, [], _, h => by cases b <;> simp [bytesLt] at h
  | _ :: _, [], _, h, _ => by simp [bytesLt] at h
  | _ :: _, _ :: _, [], _, h => by simp [bytesLt] at h
  | a :: as, b :: bs, c :: cs, h₁, h₂ => by
    simp only [bytesLt] at h₁ h₂ ⊢
    rcases Nat.lt_trichotomy a b with hab | hab | hab
    · rcases Nat.lt_trichotomy b c with hbc | hbc | hbc
      · simp [Nat.lt_trans hab hbc]
      · subst hbc; simp [hab]
      · simp [hbc, Nat.not_lt_of_lt hbc] at h₂
    · subst hab
      rcases Nat.lt_trichotomy a c with hac | hac | hac
      · simp [hac]
      · subst hac
        simp only [Nat.lt_irrefl, if_false] at h₁ h₂ ⊢
        exact bytesLt_trans as bs cs h₁ h₂
      · simp [hac, Nat.not_lt_of_lt hac] at h₂
    · simp [hab, Nat.not_lt_of_lt hab] at h₁

theorem bytesLe_total (a b : List Nat) : bytesLe a b = true ∨ bytesLe b a = true := by
  unfold bytesLe
  rcases bytesLt_trichotomy a b with h | h | h
  · left; simp [bytesLt_asymm _ _ h]
  · subst h; simp [bytesLt_irrefl]
  · right; simp [bytesLt_asymm _ _ h]

theorem bytesLe_trans {a b c : List Nat} (h₁ : bytesLe a b = true)
    (h₂ : bytesLe b c = true) : bytesLe a c = true := by
  unfold bytesLe at h₁ h₂ ⊢
  simp only [Bool.not_eq_true'] at h₁ h₂ ⊢
  rcases bytesLt_trichotomy c a with h | h | h
  · rcases bytesLt_trichotomy b c with h' | h' | h'
    · rw [bytesLt_trans b c a h' h] at h₁; cases h₁
    · rw [h'] at h₁; rw [h] at h₁; cases h₁
    · rw [h'] at h₂; cases h₂
  · rw [h]; exact bytesLt_irrefl a
  · exact bytesLt_asymm _ _ h

/-- Antisymmetry of the byte-string order. -/
theorem bytesLe_antisymm {a b : List Nat} (h₁ : bytesLe a b = true)
    (h₂ : bytesLe b a = true) : a = b := by
  unfold bytesLe at h₁ h₂
  simp only [Bool.not_eq_true'] at h₁ h₂
  rcases bytesLt_trichotomy a b with h | h | h
  · rw [h] at h₂; cases h₂
  · exact h
  · rw [h] at h₁; cases h₁

/-! ## Hex encoding and decoding (the `hex` crate) -/

/-- ASCII codes of the lowercase hex digits, as `hex::encode` emits them. -/
def hexDigits : List Nat := [48, 49, 50, 51, 52, 53, 54, 55, 56, 57, 97, 98, 99, 100, 101, 102]

/-- Hex-encode one byte as two lowercase ASCII digit bytes. -/
def byteToHex (b : Nat) : List Nat := [hexDigits.getD (b / 16) 48, hexDigits.getD (b % 16) 48]

/-- Hex encoding of a byte string (`hex::encode`), producing ASCII bytes. -/
def hexEncode (bytes : List Nat) : List Nat := (bytes.map byteToHex).flatten

/-- Value of one ASCII hex digit; `hex::decode` accepts both cases. -/
def hexDigitVal (c : Nat) : Option Nat :=
  if 48 ≤ c ∧ c ≤ 57 then some (c - 48)
  else if 97 ≤ c ∧ c ≤ 102 then some (c - 87)
  else if 65 ≤ c ∧ c ≤ 70 then some (c - 55)
  else none

/-- Hex decoding (`hex::decode`): two digits per byte, failing on an odd
length or a non-digit. -/
def hexDecode : List Nat → Option (List Nat)
  | [] => some []
  | [_] => none
  | c₁ :: c₂ :: rest =>
    match hexDigitVal c₁, hexDigitVal c₂, hexDecode rest with
    | some hi, some lo, some tail => some ((16 * hi + lo) :: tail)
    | _, _, _ => none

theorem hexDigitVal_getD {d : Nat} (hd : d < 16) :
    hexDigitVal (hexDigits.getD d 48) = some d := by
  interval_cases d <;> decide

/-- Round trip of the hex codec on genuine byte strings. -/
theorem hexDecode_hexEncode : ∀ bytes : List Nat, (∀ b ∈ bytes, b < 256) →
    hexDecode (hexEncode bytes) = some bytes
  | [], _ => rfl
  | b :: rest, h => by
    have hb : b < 256 := h b (List.mem_cons_self b rest)
    have hrest := hexDecode_hexEncode rest (fun x hx => h x (List.mem_cons_of_mem _ hx))
    have hhi : b / 16 < 16 := Nat.div_lt_of_lt_mul (by omega)
    have hlo : b % 16 < 16 := Nat.mod_lt _ (by omega)
    have hrest' : hexDecode ((rest.map byteToHex).flatten) = some rest := by
      simpa [hexEncode] using hrest
    simp only [hexEncode, List.map_cons, List.flatten_cons, byteToHex, List.cons_append,
      List.append_eq, List.nil_append, hexDecode, hexDigitVal_getD hhi,
      hexDigitVal_getD hlo, hrest']
    rw [show (16 * (b / 16) + b % 16) = b by omega]

/-! ## Base58 decoding (the `bs58` crate)

`bs58::decode(s).into_vec()` interprets `s` as big-endian base-58 digits and
prepends one zero byte per leading ASCII `1`.  The digit loop is rendered
with a fuel argument (`natToBEBytes` peels base-256 digits). -/

/-- Value of one base58 digit byte (the Bitcoin alphabet), `none` for bytes
outside the alphabet. -/
def b58DigitVal (c : Nat) : Option Nat :=
  ([49, 50, 51, 52, 53, 54, 55, 56, 57,
    65, 66, 67, 68, 69, 70, 71, 72, 74, 75, 76, 77, 78, 80, 81, 82, 83, 84,
    85, 86, 87, 88, 89, 90,
    97, 98, 99, 100, 101, 102, 103, 104, 105, 106, 107, 109, 110, 111, 112,
    113, 114, 115, 116, 117, 118, 119, 120, 121, 122] : List Nat).findIdx? (· == c)

/-- Accumulate the big-endian base-58 value of a digit string. -/
def b58ValueAux : Nat → List Nat → Option Nat
  | acc, [] => some acc
  | acc, c :: rest =>
    match b58DigitVal c with
    | none => none
    | some d => b58ValueAux (acc * 58 + d) rest

/-- Big-endian base-256 digits of a natural number (empty for zero); the
first argument is fuel making the recursion structural. -/
def natToBEBytesAux : Nat → Nat → List Nat
  | 0, _ => []
  | _, 0 => []
  | fuel + 1, n => natToBEBytesAux fuel (n / 256) ++ [n % 256]

/-- Big-endian base-256 digits of a natural number (empty for zero). -/
def natToBEBytes (n : Nat) : List Nat := natToBEBytesAux n n

/-- Number of leading ASCII `1` bytes of a base58 string. -/
def countLeadingB58Ones : List Nat → Nat
  | 49 :: rest => countLeadingB58Ones rest + 1
  | _ => 0

/-- Base58 decoding, `bs58::decode(s).into_vec()`: fails on a byte outside
the alphabet, otherwise one zero byte per leading `1` followed by the
big-endian bytes of the accumulated value. -/
def bs58Decode (s : List Nat) : Option (List Nat) :=
  match b58ValueAux 0 s with
  | none => none
  | some v => some (List.replicate (countLeadingB58Ones s) 0 ++ natToBEBytes v)

/-! ## Little-endian `i64` encoding (`i64::to_le_bytes`) -/

/-- The eight little-endian bytes of an `i64`, two's complement. -/
def i64ToLeBytes (e : Int) : List Nat :=
  [(e % 18446744073709551616).toNat % 256,
   ((e % 18446744073709551616).toNat >>> 8) % 256,
   ((e % 18446744073709551616).toNat >>> 16) % 256,
   ((e % 18446744073709551616).toNat >>> 24) % 256,
   ((e % 18446744073709551616).toNat >>> 32) % 256,
   ((e % 18446744073709551616).toNat >>> 40) % 256,
   ((e % 18446744073709551616).toNat >>> 48) % 256,
   ((e % 18446744073709551616).toNat >>> 56) % 256]

/-! ## The `rs_merkle` library, as instantiated at `Sha256Hasher`

Both `tree.rs` and `verify.rs` define the same `Sha256Hasher` (plain
SHA-256 over the concatenated input) and drive the `rs_merkle` crate with
it.  The crate's algorithms are embedded here: `from_leaves`/`root` builds
parent layers bottom-up hashing adjacent pairs and promoting an unpaired
last node unchanged (`Hasher::concat_and_hash` with an absent right child
returns the left hash); `proof` collects, per layer, the sibling of the
tracked index when that sibling exists; `MerkleProof::try_from` splits the
byte string into 32-byte hashes; `MerkleProof::verify` refolds the leaf
with the proof hashes, pairing by index parity (an even index is a left
child) and promoting when the sibling index falls outside the layer, then
compares with the expected root.  Unbounded loops are rendered with a fuel
argument; the wrappers supply fuel that the adequacy lemmas below show is
never exhausted. -/

/-- A 32-byte hash value. -/
abbrev Hash := List Nat

/-- Sha256Hasher::hash from `tree.rs` and `verify.rs` (the same
definition appears in both files). -/
def hasherHash (data : List Nat) : Hash := sha256 data

/-- Hasher::concat_and_hash: hash left‖right, or promote the left node
unchanged when it has no right sibling. -/
def concatAndHash (left : Hash) (right : Option Hash) : Hash :=
  match right with
  | some r => hasherHash (left ++ r)
  | none => left

/-- One parent layer of the tree: combine adjacent pairs, promote an
unpaired last node. -/
def parentLayer : List Hash → List Hash
  | [] => []
  | [x] => [concatAndHash x none]
  | x :: y :: rest => concatAndHash x (some y) :: parentLayer rest

theorem parentLayer_length : ∀ l, (parentLayer l).length = (l.length + 1) / 2
  | [] => rfl
  | [_] => by simp [parentLayer]
  | _ :: _ :: rest => by
    simp only [parentLayer, List.length_cons, parentLayer_length rest]
    omega

/-- MerkleTree::root by iterated parent layers; the fuel argument makes
the recursion structural and one unit is consumed per layer. -/
def rootAuxFuel : Nat → List Hash → Option Hash
  | _, [] => none
  | _, [x] => some x
  | 0, _ :: _ :: _ => none
  | fuel + 1, x :: y :: rest => rootAuxFuel fuel (parentLayer (x :: y :: rest))

/-- MerkleTree::root: `none` exactly on the empty leaf list.  A list of
`n` leaves needs fewer than `n` layers, so `n` fuel always suffices. -/
def treeRoot (leaves : List Hash) : Option Hash := rootAuxFuel leaves.length leaves

/-- MerkleTree::proof for a single leaf index: per layer, the sibling
hash of the tracked index when present (an index whose sibling falls
outside the layer was promoted and contributes nothing). -/
def proofHashesAux : Nat → List Hash → Nat → List Hash
  | _, [], _ => []
  | _, [_], _ => []
  | 0, _ :: _ :: _, _ => []
  | fuel + 1, x :: y :: rest, i =>
    (match (x :: y :: rest)[i ^^^ 1]? with
     | some h => [h]
     | none => []) ++ proofHashesAux fuel (parentLayer (x :: y :: rest)) (i / 2)

/-- MerkleProof::to_bytes: the proof hashes concatenated. -/
def proofToBytes (hashes : List Hash) : List Nat := hashes.flatten

/-- MerkleProof::try_from: split the byte string into 32-byte hashes,
failing when the length is not a multiple of 32. -/
def splitHashesAux : Nat → List Nat → Option (List Hash)
  | _, [] => some []
  | 0, _ :: _ => none
  | fuel + 1, b :: rest =>
    if (b :: rest).length < 32 then none
    else
      match splitHashesAux fuel ((b :: rest).drop 32) with
      | some tail => some ((b :: rest).take 32 :: tail)
      | none => none

/-- MerkleProof::try_from (with adequate fuel). -/
def proofFromBytes (bytes : List Nat) : Option (List Hash) :=
  splitHashesAux bytes.length bytes

/-- MerkleProof::verify's root recomputation for a single leaf index:
walk the layers from `leaf`; when the sibling index is inside the layer,
consume one proof hash and combine left/right by index parity; otherwise
promote; fail if the proof hashes run out. -/
def computeRootAux : Nat → List Hash → Nat → Nat → Hash → Option Hash
  | _, _, _, 0, current => some current
  | _, _, _, 1, current => some current
  | 0, _, _, _ + 2, _ => none
  | fuel + 1, hashes, i, n + 2, current =>
    if i ^^^ 1 < n + 2 then
      match hashes with
      | [] => none
      | h :: rest =>
        computeRootAux fuel rest (i / 2) ((n + 3) / 2)
          (if i % 2 = 0 then hasherHash (current ++ h) else hasherHash (h ++ current))
    else computeRootAux fuel hashes (i / 2) ((n + 3) / 2) current

/-- Root recomputed from a proof (MerkleProof::root); `total` levels of
fuel always suffice since each level at least halves the layer width. -/
def computeRootFromProof (proofHs : List Hash) (i total : Nat) (leaf : Hash) : Option Hash :=
  computeRootAux total proofHs i total leaf

/-- MerkleProof::verify: recompute the root and compare; a failed
recomputation is `false`, not an error. -/
def proofVerify (proofHs : List Hash) (root : Hash) (i total : Nat) (leaf : Hash) : Bool :=
  match computeRootFromProof proofHs i total leaf with
  | some computed => computed == root
  | none => false

/-! ### Sibling index arithmetic: `i ^^^ 1` flips the last bit -/

theorem two_mul_xor_one (q : Nat) : 2 * q ^^^ 1 = 2 * q + 1 := by
  apply Nat.eq_of_testBit_eq
  intro j
  rw [Nat.testBit_xor]
  cases j with
  | zero =>
    rw [Nat.testBit_zero, Nat.testBit_zero, Nat.testBit_zero]
    have h₁ : 2 * q % 2 = 0 := by omega
    have h₂ : (2 * q + 1) % 2 = 1 := by omega
    simp [h₁, h₂]
  | succ k =>
    rw [Nat.testBit_succ, Nat.testBit_succ, Nat.testBit_succ]
    have h₁ : 2 * q / 2 = q := by omega
    have h₂ : (2 * q + 1) / 2 = q := by omega
    have h₃ : (1 : Nat) / 2 = 0 := by omega
    simp [h₁, h₂, h₃, Nat.zero_testBit]

theorem two_mul_add_one_xor_one (q : Nat) : (2 * q + 1) ^^^ 1 = 2 * q := by
  apply Nat.eq_of_testBit_eq
  intro j
  rw [Nat.testBit_xor]
  cases j with
  | zero =>
    rw [Nat.testBit_zero, Nat.testBit_zero, Nat.testBit_zero]
    have h₁ : 2 * q % 2 = 0 := by omega
    have h₂ : (2 * q + 1) % 2 = 1 := by omega
    simp [h₁, h₂]
  | succ k =>
    rw [Nat.testBit_succ, Nat.testBit_succ, Nat.testBit_succ]
    have h₁ : 2 * q / 2 = q := by omega
    have h₂ : (2 * q + 1) / 2 = q := by omega
    have h₃ : (1 : Nat) / 2 = 0 := by omega
    simp [h₁, h₂, h₃, Nat.zero_testBit]

theorem xor_one_eq (i : Nat) : i ^^^ 1 = if i % 2 = 0 then i + 1 else i - 1 := by
  rcases Nat.even_or_odd i with ⟨q, hq⟩ | ⟨q, hq⟩
  · subst hq
    rw [show q + q = 2 * q by omega, two_mul_xor_one]
    simp [Nat.mul_mod_right]
  · subst hq
    rw [two_mul_add_one_xor_one]
    have : (2 * q + 1) % 2 = 1 := by omega
    simp [this]

/-- Equality of `Except` results is decidable componentwise. -/
instance {ε α : Type} [DecidableEq ε] [DecidableEq α] : DecidableEq (Except ε α) := fun a b =>
  match a, b with
  | .ok x, .ok y =>
    if h : x = y then isTrue (by rw [h]) else isFalse (by intro hc; cases hc; exact h rfl)
  | .ok _, .error _ => isFalse (by intro hc; cases hc)
  | .error _, .ok _ => isFalse (by intro hc; cases hc)
  | .error x, .error y =>
    if h : x = y then isTrue (by rw [h]) else isFalse (by intro hc; cases hc; exact h rfl)

namespace Backend

/-! ## The backend (`src/backend/src/merkle/tree.rs`, `updatestate.rs`,
`main.rs`)

`build_tree_from_db` is modelled as a function of the rows the SQL query
returns (the `(wallet_address, expiration_ts)` pairs, in store order);
the wallet address `String` is its UTF-8 byte sequence.  The two `panic`
paths of the leaf-mapping closure (`expect` on base58 failure and the
explicit length `panic`) are rendered as `Except.error` results carrying
the panic messages, so that the function stays total. -/

/-- One subscriber row: `(wallet_address, expiration_ts)`. -/
abbrev Row := List Nat × Int

/-- Comparator used by `subscribers.sort_by(|a, b| a.0.cmp(&b.0))`:
wallet address in byte order. -/
def rowLe (a b : Row) : Prop := bytesLe a.1 b.1 = true

instance : DecidableRel rowLe := fun a b =>
  inferInstanceAs (Decidable (bytesLe a.1 b.1 = true))

instance : IsTotal Row rowLe := ⟨fun a b => bytesLe_total a.1 b.1⟩

instance : IsTrans Row rowLe := ⟨fun _ _ _ => bytesLe_trans⟩

/-- Rust's `sort_by` is a stable sort; the stable sort of a list under a
total order is unique, so insertion sort computes it. -/
def sortSubscribers (rows : List Row) : List Row := List.insertionSort rowLe rows

def errNoSubscribers : String := "No subscribers found in database"

def errInvalidB58Db : String := "Invalid base58 pubkey in database"

def errPubkeyLenPanic : String := "Pubkey must be exactly 32 bytes"

def errRootFailed : String := "Failed to generate root"

def errInvalidRootHex : String := "Invalid root hex"

def errRootLen : String := "Root must be 32 bytes"

def errInvalidProofFormat : String := "Invalid proof format"

def errInvalidB58 : String := "Invalid base58 pubkey"

def errPubkeyLen : String := "Pubkey must be 32 bytes"

/-- The leaf of one subscriber row: decode the base58 wallet address,
require 32 bytes, hash `pubkey_bytes ‖ expiration.to_le_bytes()`.  This is
the closure of `build_tree_from_db`'s leaf map; its `expect`/`panic`
become errors. -/
def leafOfRecord (p : Row) : Except String Hash :=
  match bs58Decode p.1 with
  | none => .error errInvalidB58Db
  | some pubkey_bytes =>
    if pubkey_bytes.length ≠ 32 then .error errPubkeyLenPanic
    else .ok (hasherHash (pubkey_bytes ++ i64ToLeBytes p.2))

/-- The `rs_merkle::MerkleTree` value, determined by its leaves (layers
and root are recomputed from them). -/
structure MerkleTree where
  leaves : List Hash
deriving DecidableEq

/-- build_tree_from_db from `tree.rs`: fail on an empty row set, sort by
wallet address, hash each row into a leaf, build the tree, return the
hex-encoded root, the tree and the sorted rows. -/
def build_tree_from_db (rows : List Row) : Except String (List Nat × MerkleTree × List Row) :=
  if rows.isEmpty then .error errNoSubscribers
  else
    let subscribers := sortSubscribers rows
    match subscribers.mapM leafOfRecord with
    | .error e => .error e
    | .ok leaves =>
      match treeRoot leaves with
      | none => .error errRootFailed
      | some root => .ok (hexEncode root, ⟨leaves⟩, subscribers)

/-- get_proof_for_user from `tree.rs`: position of the first row whose
wallet address equals `user_pubkey`, plus the serialized proof for that
leaf index; `none` when the user is absent. -/
def get_proof_for_user (tree : MerkleTree) (subscribers : List Row)
    (user_pubkey : List Nat) : Option (List Nat × Nat) :=
  match subscribers.findIdx? (fun p => p.1 == user_pubkey) with
  | none => none
  | some index =>
    some (proofToBytes (proofHashesAux tree.leaves.length tree.leaves index), index)

/-- verify_subscription from `tree.rs` (the off-chain verifier): decode
the hex root, parse the proof bytes, re-derive the leaf from the claimed
wallet address and expiration, and check the proof.  Note that no clock
is consulted: the function has no expiration test. -/
def verify_subscription (root_hex : List Nat) (proof_bytes : List Nat)
    (user_pubkey : List Nat) (expiration_ts : Int) (index : Nat)
    (total_subscribers : Nat) : Except String Bool :=
  match hexDecode root_hex with
  | none => .error errInvalidRootHex
  | some root_vec =>
    if root_vec.length ≠ 32 then .error errRootLen
    else
      match proofFromBytes proof_bytes with
      | none => .error errInvalidProofFormat
      | some proof =>
        match bs58Decode user_pubkey with
        | none => .error errInvalidB58
        | some pubkey_bytes =>
          if pubkey_bytes.length ≠ 32 then .error errPubkeyLen
          else .ok (proofVerify proof root_vec index total_subscribers
                     (hasherHash (pubkey_bytes ++ i64ToLeBytes expiration_ts)))

/-- One row of the `merkle_state` audit table (`model.rs`); the
`created_at` wall-clock column is outside the embedding. -/
structure SyncRow where
  root_hash : List Nat
  is_synced_on_chain : Bool
  tx_signature : Option String
deriving DecidableEq

/-- update_merkle_state from `updatestate.rs`: append one audit row whose
synced flag is the presence of the transaction signature. -/
def update_merkle_state (db : List SyncRow) (root_hex : List Nat)
    (tx_signature : Option String) : List SyncRow :=
  db ++ [{ root_hash := root_hex, is_synced_on_chain := tx_signature.isSome,
           tx_signature := tx_signature }]

/-- The publish-and-record step of `main.rs` (the match on
`solana_client.update_merkle_root(root_bytes)`): on success store the row
with the signature, on failure still store the row with no signature. -/
def sync_root_after_build (db : List SyncRow) (root_hash : List Nat)
    (publish_result : Except String String) : List SyncRow :=
  match publish_result with
  | .ok signature => update_merkle_state db root_hash (some signature)
  | .error _ => update_merkle_state db root_hash none

end Backend

namespace Onchain

/-! ## The Anchor program (`src/merkle-program/programs/merkle-program`) -/

/-- error.rs: the program's error codes. -/
inductive SubscriptionError
  | Unauthorized
  | InvalidProof
  | SubscriptionExpired
deriving DecidableEq

/-- state.rs: the `SubscriptionConfig` PDA account. -/
structure SubscriptionConfig where
  authority : List Nat
  merkle_root : Hash
  bump : Nat
deriving DecidableEq

/-- verify_subscription from `instructions/verify.rs`: first require
`expiration > clock.unix_timestamp` (else `SubscriptionExpired`), then
reconstruct the leaf from the signer key and claimed expiration, parse
the proof, and require it to verify against the stored root. -/
def verify_subscription (config : SubscriptionConfig) (user_key : List Nat)
    (proof_bytes : List Nat) (expiration : Int) (leaf_index : Nat)
    (total_leaves : Nat) (clock_unix_timestamp : Int) :
    Except SubscriptionError Unit :=
  if expiration ≤ clock_unix_timestamp then .error .SubscriptionExpired
  else
    let leaf := hasherHash (user_key ++ i64ToLeBytes expiration)
    match proofFromBytes proof_bytes with
    | none => .error .InvalidProof
    | some proof =>
      if proofVerify proof config.merkle_root leaf_index total_leaves leaf then .ok ()
      else .error .InvalidProof

/-- update_root from `instructions/update_root.rs`: overwrite the stored
merkle root (the `has_one = authority` account constraint is enforced by
the Anchor accounts context before the body runs). -/
def update_root (config : SubscriptionConfig) (new_root : Hash) : SubscriptionConfig :=
  { config with merkle_root := new_root }

/-- The initialization handler from `instructions/initialize.rs`. -/
def initConfig (authority_key : List Nat) (bump : Nat) (initial_root : Hash) :
    SubscriptionConfig :=
  { authority := authority_key, merkle_root := initial_root, bump := bump }

end Onchain

/-! ## Concrete inputs used by counterexamples and witnesses

Wallet addresses are base58 strings; `pkOnes` is 32 ASCII `1`s (decoding
to the 32-byte zero key), and `pkTwo`/`pkThree`/`pkFour` replace the last
character, decoding to 31 zero bytes followed by 1, 2, 3. -/

def pkOnes : List Nat := List.replicate 32 49

def pkTwo : List Nat := List.replicate 31 49 ++ [50]

def pkThree : List Nat := List.replicate 31 49 ++ [51]

def pkFour : List Nat := List.replicate 31 49 ++ [52]

/-- The 32-byte zero public key (the decoding of `pkOnes`). -/
def zeros32 : List Nat := List.replicate 32 0

/-- Leaf hash of the zero key with expiration `e`. -/
def zeroLeaf (e : Int) : Hash := hasherHash (zeros32 ++ i64ToLeBytes e)

/-- Two rows with the same wallet address and different expirations. -/
def dupRows : List Backend.Row := [(pkOnes, 1), (pkOnes, 2)]

/-! ## Claim C8: empty input fails with the empty-set error -/

/-- C8: `build_tree_from_db` applied to zero records fails with the
empty-set error result; it returns no root at all (in particular not a
zero-filled one) for the empty input. -/
theorem claim_C8_empty_set :
    Backend.build_tree_from_db [] = .error Backend.errNoSubscribers := rfl

/-! ## Claim C10: update_root touches only the merkle_root field -/

/-- C10: the on-chain `update_root` rewrites exactly the `merkle_root`
field of the `SubscriptionConfig` account; `authority` and `bump` are
unchanged for every prior state and every new root. -/
theorem claim_C10_update_root_frame (config : Onchain.SubscriptionConfig) (new_root : Hash) :
    (Onchain.update_root config new_root).authority = config.authority ∧
    (Onchain.update_root config new_root).bump = config.bump ∧
    (Onchain.update_root config new_root).merkle_root = new_root :=
  ⟨rfl, rfl, rfl⟩

/-! ## Claim C7: a sync row is written on both publish outcomes -/

/-- C7: after every build attempt the workflow appends exactly one
`merkle_state` row carrying the computed root hex: on publish success the
row is marked synced and carries the receipt; on publish failure the row
is still written, unsynced and with no receipt. -/
theorem claim_C7_sync_row_always_written (db : List Backend.SyncRow)
    (root_hash : List Nat) (signature err : String) :
    Backend.sync_root_after_build db root_hash (.ok signature)
      = db ++ [⟨root_hash, true, some signature⟩] ∧
    Backend.sync_root_after_build db root_hash (.error err)
      = db ++ [⟨root_hash, false, none⟩] :=
  ⟨rfl, rfl⟩

/-! ## Claim C1: expiration precedence (corrected)

The on-chain verifier does reject a stale expiration before any hashing,
but the off-chain `verify_subscription` in `tree.rs` consults no clock at
all: a cryptographically valid proof with an expired claim verifies
`true` there. -/

/-- C1 counterexample: with trusted clock time 1, a well-formed proof for
the zero key whose claimed expiration 0 is in the past is accepted by the
off-chain verifier (single-leaf tree, so the empty proof is
cryptographically valid against the root).  The claim predicted a
negative outcome in both verifier contexts. -/
theorem claim_C1_counterexample :
    (0 : Int) ≤ 1 ∧
    Backend.verify_subscription (hexEncode (zeroLeaf 0)) [] pkOnes 0 0 1 = .ok true :=
  ⟨by decide, by decide⟩

/-- C1 amended: only the on-chain verifier enforces expiration; it
rejects `expiration ≤ clock` with `SubscriptionExpired` before any leaf
hashing or proof folding — the outcome is independent of the stored root,
the signer key, the proof bytes, the position and the total.  (The
off-chain verifier performs no expiration check, as the counterexample
shows.) -/
theorem claim_C1_onchain_rejects_expired (config : Onchain.SubscriptionConfig)
    (user_key proof_bytes : List Nat) (expiration : Int) (leaf_index total : Nat)
    (clock : Int) (hexp : expiration ≤ clock) :
    Onchain.verify_subscription config user_key proof_bytes expiration
      leaf_index total clock = .error .SubscriptionExpired := by
  unfold Onchain.verify_subscription
  rw [if_pos hexp]

/-- Witness for the amended C1 theorem at a concrete expired input. -/
theorem claim_C1_witness :
    (0 : Int) ≤ 1 ∧
    Onchain.verify_subscription ⟨[], [], 0⟩ zeros32 [] 0 0 1 1
      = .error .SubscriptionExpired :=
  ⟨by decide, claim_C1_onchain_rejects_expired ⟨[], [], 0⟩ zeros32 [] 0 0 1 1 (by decide)⟩

/-! ## Claim C3: pair combination rule (corrected)

The verifiers do not sort each current/sibling pair by raw byte order:
`rs_merkle` combines by position, taking the current hash as the left
child exactly when its index at that level is even.  The fold therefore
depends on the claimed position. -/

/-- Modelled from the spec (§4.4 Step 3): combine a current/sibling pair
as SHA256(min ‖ max) under raw byte comparison, and fold the proof from
the leaf.  This is the rule the claim asserts; the code does not use it. -/
def specSortedCombine (x y : Hash) : Hash :=
  if bytesLe x y = true then hasherHash (x ++ y) else hasherHash (y ++ x)

/-- Modelled from the spec: the orientation-free sorted-pair fold. -/
def specSortedFold (leaf : Hash) (siblings : List Hash) : Hash :=
  siblings.foldl specSortedCombine leaf

/-- C3 counterexample: a two-leaf instance (leaf = zero key with
expiration 0, sibling = its expiration-1 variant, trusted root = the
spec's sorted-pair combination, which here is SHA256(sibling ‖ leaf)).
Per the claim the verifier would accept at either claimed position; the
actual verifier rejects at position 0 (it computes SHA256(leaf ‖ sibling)
there) and accepts at position 1 — the fold is positional, not
byte-sorted, and not position-independent. -/
theorem claim_C3_counterexample :
    specSortedFold (zeroLeaf 0) [zeroLeaf 1] = hasherHash (zeroLeaf 1 ++ zeroLeaf 0) ∧
    Backend.verify_subscription (hexEncode (hasherHash (zeroLeaf 1 ++ zeroLeaf 0)))
      (zeroLeaf 1) pkOnes 0 0 2 = .ok false ∧
    Backend.verify_subscription (hexEncode (hasherHash (zeroLeaf 1 ++ zeroLeaf 0)))
      (zeroLeaf 1) pkOnes 0 1 2 = .ok true :=
  ⟨by decide, by decide, by decide⟩

/-- C3 amended: at every folding step with a sibling inside the layer,
the verifier consumes the next proof hash and combines it positionally:
the current hash is the left operand of SHA-256 exactly when its index at
that level is even, and the fold continues with the halved index — no
byte comparison of the pair is involved. -/
theorem claim_C3_positional_combine (fuel i n : Nat) (current h : Hash)
    (rest : List Hash) (hsib : i ^^^ 1 < n + 2) :
    computeRootAux (fuel + 1) (h :: rest) i (n + 2) current =
      computeRootAux fuel rest (i / 2) ((n + 3) / 2)
        (if i % 2 = 0 then hasherHash (current ++ h) else hasherHash (h ++ current)) := by
  simp only [computeRootAux, if_pos hsib]

/-- Witness for the amended C3 theorem at a concrete step. -/
theorem claim_C3_witness :
    0 ^^^ 1 < 0 + 2 ∧
    computeRootAux 1 [zeros32] 0 2 zeros32 =
      computeRootAux 0 [] 0 1
        (if 0 % 2 = 0 then hasherHash (zeros32 ++ zeros32)
         else hasherHash (zeros32 ++ zeros32)) :=
  ⟨by decide, claim_C3_positional_combine 0 0 0 zeros32 zeros32 [] (by decide)⟩

/-! ## Claim C4: the two verifiers agree bit-for-bit (corrected)

They disagree on every expired-but-valid claim: the on-chain verifier
rejects it, the off-chain verifier has no expiration check.  On
non-expired claims with well-formed encodings they do implement the same
predicate. -/

/-- C4 counterexample: same trusted root, proof bytes, identity, claimed
expiration 0, position 0, total 1 and clock time 1 — the off-chain
verifier accepts and the on-chain verifier rejects. -/
theorem claim_C4_counterexample :
    Backend.verify_subscription (hexEncode (zeroLeaf 0)) [] pkOnes 0 0 1 = .ok true ∧
    Onchain.verify_subscription ⟨[], zeroLeaf 0, 0⟩ zeros32 [] 0 0 1 1
      = .error .SubscriptionExpired :=
  ⟨by decide, by decide⟩

/-- C4 amended: on every input whose claimed expiration is strictly after
the clock and whose encodings are well-formed (the base58 identity
decodes to the 32-byte key the on-chain context reads from the signer,
and the hex root decodes to the 32-byte stored root), the two verifiers
agree: the off-chain verifier answers `ok true` exactly when the on-chain
verifier accepts. -/
theorem claim_C4_agree_unexpired (root : Hash) (pk keyBytes proof_bytes : List Nat)
    (expiration clock : Int) (idx total : Nat) (authority : List Nat) (bump : Nat)
    (hdec : bs58Decode pk = some keyBytes) (hlen : keyBytes.length = 32)
    (hroot : root.length = 32) (hbytes : ∀ x ∈ root, x < 256)
    (hexp : clock < expiration) :
    Backend.verify_subscription (hexEncode root) proof_bytes pk expiration idx total
        = .ok true ↔
      Onchain.verify_subscription ⟨authority, root, bump⟩ keyBytes proof_bytes expiration
        idx total clock = .ok () := by
  have h1 : ¬ (root.length ≠ 32) := by omega
  have h2 : ¬ (keyBytes.length ≠ 32) := by omega
  have h3 : ¬ (expiration ≤ clock) := by omega
  unfold Backend.verify_subscription Onchain.verify_subscription
  simp only [hexDecode_hexEncode root hbytes, hdec, if_neg h1, if_neg h2, if_neg h3]
  cases hpf : proofFromBytes proof_bytes with
  | none => simp [hpf]
  | some proof =>
    by_cases hv : proofVerify proof root idx total
        (hasherHash (keyBytes ++ i64ToLeBytes expiration)) = true
    · simp [hpf, hv]
    · rw [Bool.not_eq_true] at hv
      simp [hpf, hv]

/-- Witness for the amended C4 theorem at a concrete non-expired input. -/
theorem claim_C4_witness :
    bs58Decode pkOnes = some zeros32 ∧ zeros32.length = 32 ∧
    (List.replicate 32 0 : List Nat).length = 32 ∧ (0 : Int) < 1 ∧
    (Backend.verify_subscription (hexEncode (List.replicate 32 0)) [] pkOnes 1 0 1
        = .ok true ↔
      Onchain.verify_subscription ⟨[], List.replicate 32 0, 0⟩ zeros32 [] 1 0 1 0
        = .ok ()) :=
  ⟨by decide, by decide, by decide, by decide,
    claim_C4_agree_unexpired (List.replicate 32 0) pkOnes zeros32 [] 1 0 0 1 [] 0
      (by decide) (by decide) (by decide) (by decide) (by decide)⟩

/-! ## Building succeeds on nonempty row sets with decodable addresses -/

/-- The leaf value of a row whose wallet address decodes. -/
def leafValue (p : Backend.Row) : Hash :=
  hasherHash ((bs58Decode p.1).getD [] ++ i64ToLeBytes p.2)

theorem leafOfRecord_ok {p : Backend.Row} {b : List Nat}
    (hdec : bs58Decode p.1 = some b) (hlen : b.length = 32) :
    Backend.leafOfRecord p = .ok (leafValue p) := by
  unfold Backend.leafOfRecord leafValue
  rw [hdec]
  simp [hlen]

theorem mapM_leafOfRecord : ∀ l : List Backend.Row,
    (∀ p ∈ l, ∃ b, bs58Decode p.1 = some b ∧ b.length = 32) →
    l.mapM Backend.leafOfRecord = .ok (l.map leafValue)
  | [], _ => rfl
  | p :: rest, h => by
    obtain ⟨b, hb, hbl⟩ := h p (List.mem_cons_self p rest)
    have ih := mapM_leafOfRecord rest (fun q hq => h q (List.mem_cons_of_mem _ hq))
    rw [List.mapM_cons, leafOfRecord_ok hb hbl, ih]
    rfl

theorem rootAuxFuel_isSome (fuel : Nat) : ∀ l : List Hash, l ≠ [] →
    l.length ≤ fuel + 1 → ∃ r, rootAuxFuel fuel l = some r := by
  induction fuel with
  | zero =>
    intro l hne hlen
    match l with
    | [] => exact absurd rfl hne
    | [x] => exact ⟨x, rfl⟩
    | x :: y :: rest => simp at hlen
  | succ fuel ih =>
    intro l hne hlen
    match l with
    | [] => exact absurd rfl hne
    | [x] => exact ⟨x, rfl⟩
    | x :: y :: rest =>
      have hplen : (parentLayer (x :: y :: rest)).length = ((x :: y :: rest).length + 1) / 2 :=
        parentLayer_length _
      simp only [List.length_cons] at hplen hlen
      obtain ⟨r, hr⟩ := ih (parentLayer (x :: y :: rest))
        (List.ne_nil_of_length_pos (by omega))
        (by omega)
      exact ⟨r, by rw [show rootAuxFuel (fuel + 1) (x :: y :: rest)
        = rootAuxFuel fuel (parentLayer (x :: y :: rest)) from rfl, hr]⟩

theorem treeRoot_isSome (l : List Hash) (hne : l ≠ []) : ∃ r, treeRoot l = some r :=
  rootAuxFuel_isSome l.length l hne (by omega)

/-- A successful build returns the hex root of the tree over the leaves
of the sorted rows, that tree, and the sorted rows. -/
theorem build_tree_ok (rows : List Backend.Row) (hne : rows ≠ [])
    (hdec : ∀ p ∈ rows, ∃ b, bs58Decode p.1 = some b ∧ b.length = 32) :
    ∃ root, treeRoot ((Backend.sortSubscribers rows).map leafValue) = some root ∧
      Backend.build_tree_from_db rows =
        .ok (hexEncode root, ⟨(Backend.sortSubscribers rows).map leafValue⟩,
             Backend.sortSubscribers rows) := by
  have hperm : (Backend.sortSubscribers rows).Perm rows :=
    List.perm_insertionSort Backend.rowLe rows
  have hsne : Backend.sortSubscribers rows ≠ [] := by
    have hlen := hperm.length_eq
    have : 0 < rows.length := List.length_pos.mpr hne
    exact List.ne_nil_of_length_pos (by omega)
  have hmap : (Backend.sortSubscribers rows).mapM Backend.leafOfRecord
      = .ok ((Backend.sortSubscribers rows).map leafValue) :=
    mapM_leafOfRecord _ (fun q hq => hdec q (hperm.mem_iff.mp hq))
  have hlne : (Backend.sortSubscribers rows).map leafValue ≠ [] := by
    intro hnil
    exact hsne (List.map_eq_nil_iff.mp hnil)
  obtain ⟨root, hroot⟩ := treeRoot_isSome _ hlne
  refine ⟨root, hroot, ?_⟩
  have hempty : ¬ (rows.isEmpty = true) := by
    rw [List.isEmpty_iff]
    exact hne
  simp only [Backend.build_tree_from_db, if_neg hempty, hmap, hroot]

/-! ## Claim C2: duplicate collapse (corrected)

`build_tree_from_db` performs no deduplication: the sort keeps both
copies of a duplicated identity and each row is hashed into its own
leaf. -/

/-- C2 counterexample: two records with the same identity (one distinct
identity) produce two leaves and a returned record list of length two —
the claim predicted a single leaf. -/
theorem claim_C2_counterexample :
    (dupRows.map Prod.fst).dedup.length = 1 ∧
    (Backend.build_tree_from_db dupRows).toOption.map
      (fun t => (t.2.1.leaves.length, t.2.2.length)) = some (2, 2) :=
  ⟨by decide, by decide⟩

/-- C2 amended: `build_tree_from_db` collapses nothing: on every
nonempty, decodable row sequence it succeeds with exactly one leaf per
input record, so leaf count and returned record count equal the input
length even when identities repeat. -/
theorem claim_C2_no_dedup (rows : List Backend.Row) (hne : rows ≠ [])
    (hdec : ∀ p ∈ rows, ∃ b, bs58Decode p.1 = some b ∧ b.length = 32) :
    ∃ rootHex tree sorted, Backend.build_tree_from_db rows = .ok (rootHex, tree, sorted) ∧
      tree.leaves.length = rows.length ∧ sorted.length = rows.length := by
  obtain ⟨root, _, hbuild⟩ := build_tree_ok rows hne hdec
  have hlen := (List.perm_insertionSort Backend.rowLe rows).length_eq
  exact ⟨_, _, _, hbuild, by rw [List.length_map]; exact hlen, hlen⟩

/-- Witness for the amended C2 theorem at the duplicate-identity input. -/
theorem claim_C2_witness :
    dupRows ≠ [] ∧
    (∃ rootHex tree sorted, Backend.build_tree_from_db dupRows = .ok (rootHex, tree, sorted) ∧
      tree.leaves.length = dupRows.length ∧ sorted.length = dupRows.length) :=
  ⟨by decide, claim_C2_no_dedup dupRows (by decide)
    (fun p hp => by fin_cases hp <;> exact ⟨zeros32, by decide, by decide⟩)⟩

/-! ## Claim C6: permutation determinism (corrected)

With pairwise-distinct identities the sorted row list — hence the whole
build result — is permutation-invariant.  With a duplicated identity the
stable sort preserves the input order of the duplicates, and two
orderings of the same multiset yield different roots. -/

/-- Two sorted row lists that are permutations of each other and have
pairwise-distinct wallet addresses are equal. -/
theorem sorted_perm_nodup_keys_eq : ∀ l₁ l₂ : List Backend.Row,
    List.Sorted Backend.rowLe l₁ → List.Sorted Backend.rowLe l₂ →
    l₁.Perm l₂ → (l₁.map Prod.fst).Nodup → l₁ = l₂
  | [], l₂, _, _, hperm, _ => hperm.nil_eq
  | a :: t₁, [], _, _, hperm, _ => by
    have := hperm.eq_nil
    cases this
  | a :: t₁, b :: t₂, hs₁, hs₂, hperm, hnd => by
    have hab : a = b := by
      by_contra hne
      have ha2 : a ∈ t₂ := by
        rcases List.mem_cons.mp (hperm.mem_iff.mp (List.mem_cons_self a t₁)) with h | h
        · exact absurd h hne
        · exact h
      have hb1 : b ∈ t₁ := by
        rcases List.mem_cons.mp (hperm.symm.mem_iff.mp (List.mem_cons_self b t₂)) with h | h
        · exact absurd h.symm hne
        · exact h
      have h1 : Backend.rowLe a b := (List.sorted_cons.mp hs₁).1 b hb1
      have h2 : Backend.rowLe b a := (List.sorted_cons.mp hs₂).1 a ha2
      have hkey : a.1 = b.1 := bytesLe_antisymm h1 h2
      have hmem : a.1 ∈ t₁.map Prod.fst := by
        rw [hkey]
        exact List.mem_map_of_mem Prod.fst hb1
      simp only [List.map_cons, List.nodup_cons] at hnd
      exact hnd.1 hmem
    subst hab
    have ht : t₁ = t₂ :=
      sorted_perm_nodup_keys_eq t₁ t₂ (List.sorted_cons.mp hs₁).2 (List.sorted_cons.mp hs₂).2
        hperm.cons_inv (by simp only [List.map_cons, List.nodup_cons] at hnd; exact hnd.2)
    rw [ht]

/-- C6 amended: for row sequences with pairwise-distinct wallet
addresses, any permutation of the input yields the identical build
result (same root, tree and ordered records). -/
theorem claim_C6_perm_invariant (rows₁ rows₂ : List Backend.Row)
    (hperm : rows₁.Perm rows₂) (hnodup : (rows₁.map Prod.fst).Nodup) :
    Backend.build_tree_from_db rows₁ = Backend.build_tree_from_db rows₂ := by
  have hsort : Backend.sortSubscribers rows₁ = Backend.sortSubscribers rows₂ := by
    apply sorted_perm_nodup_keys_eq
    · exact List.sorted_insertionSort _ _
    · exact List.sorted_insertionSort _ _
    · exact (List.perm_insertionSort _ rows₁).trans
        (hperm.trans (List.perm_insertionSort _ rows₂).symm)
    · exact (((List.perm_insertionSort Backend.rowLe rows₁).map Prod.fst).nodup_iff).mpr hnodup
  by_cases hemp : rows₁ = []
  · subst hemp
    rw [← hperm.nil_eq]
  · have hemp₂ : rows₂ ≠ [] := by
      intro h
      subst h
      exact hemp hperm.eq_nil
    have he₁ : ¬ (rows₁.isEmpty = true) := by rw [List.isEmpty_iff]; exact hemp
    have he₂ : ¬ (rows₂.isEmpty = true) := by rw [List.isEmpty_iff]; exact hemp₂
    unfold Backend.build_tree_from_db
    rw [if_neg he₁, if_neg he₂, hsort]

/-- C6 counterexample: the same two-record multiset with a duplicated
identity, in its two orders.  The stable sort preserves the input order
of the equal keys, so the two builds commit to different roots. -/
theorem claim_C6_counterexample :
    dupRows.Perm [(pkOnes, (2 : Int)), (pkOnes, 1)] ∧
    (Backend.build_tree_from_db dupRows).toOption.map Prod.fst ≠
      (Backend.build_tree_from_db [(pkOnes, (2 : Int)), (pkOnes, 1)]).toOption.map Prod.fst :=
  ⟨List.Perm.swap (pkOnes, 2) (pkOnes, 1) [], by decide⟩

/-- Witness for the amended C6 theorem on two distinct-identity rows. -/
theorem claim_C6_witness :
    ([(pkTwo, (100 : Int)), (pkThree, 200)] : List Backend.Row).Perm
      [(pkThree, 200), (pkTwo, 100)] ∧
    (([(pkTwo, (100 : Int)), (pkThree, 200)] : List Backend.Row).map Prod.fst).Nodup ∧
    Backend.build_tree_from_db [(pkTwo, (100 : Int)), (pkThree, 200)] =
      Backend.build_tree_from_db [(pkThree, 200), (pkTwo, 100)] :=
  ⟨List.Perm.swap (pkThree, 200) (pkTwo, 100) [], by decide,
    claim_C6_perm_invariant _ _ (List.Perm.swap (pkThree, 200) (pkTwo, 100) []) (by decide)⟩

/-! ## Round trip: a generated proof refolds to the tree root

The key fact behind claims C5 and C9: for any leaf layer and any in-range
index, folding the collected sibling hashes from that leaf (the
verify-side `computeRootAux`) reproduces the root the builder computes,
level by level. -/

theorem getD_eq_get {l : List Hash} {i : Nat} (h : i < l.length) : l.getD i [] = l[i] := by
  rw [List.getD_eq_getElem?_getD, List.getElem?_eq_getElem h]
  rfl

/-- Paired nodes: element `k` of the parent layer hashes children `2k`
and `2k+1` when both exist. -/
theorem parentLayer_getD_pair : ∀ (l : List Hash) (k : Nat), 2 * k + 1 < l.length →
    (parentLayer l).getD k [] = hasherHash (l.getD (2 * k) [] ++ l.getD (2 * k + 1) [])
  | [], k, h => by simp at h
  | [x], k, h => by simp at h
  | x :: y :: rest, 0, h => by
    simp [parentLayer, concatAndHash]
  | x :: y :: rest, k + 1, h => by
    have h' : 2 * k + 1 < rest.length := by
      simp only [List.length_cons] at h
      omega
    have ih := parentLayer_getD_pair rest k h'
    rw [show 2 * (k + 1) = 2 * k + 1 + 1 from by ring,
      show 2 * k + 1 + 1 + 1 = (2 * k + 1 + 1) + 1 from rfl]
    simp only [parentLayer, List.getD_cons_succ]
    exact ih

/-- Promoted node: when the layer has odd length `2k+1`, element `k` of
the parent layer is child `2k` unchanged. -/
theorem parentLayer_getD_promote : ∀ (l : List Hash) (k : Nat), l.length = 2 * k + 1 →
    (parentLayer l).getD k [] = l.getD (2 * k) []
  | [], k, h => by simp at h
  | [x], 0, _ => by simp [parentLayer, concatAndHash]
  | [x], k + 1, h => by simp at h
  | x :: y :: rest, 0, h => by simp at h
  | x :: y :: rest, k + 1, h => by
    have h' : rest.length = 2 * k + 1 := by
      simp only [List.length_cons] at h
      omega
    have ih := parentLayer_getD_promote rest k h'
    rw [show 2 * (k + 1) = 2 * k + 1 + 1 from by ring]
    simp only [parentLayer, List.getD_cons_succ]
    exact ih

/-- Verify's fold of the generated sibling hashes reproduces the
builder's root, for every in-range leaf index. -/
theorem computeRoot_proofHashes (fuel : Nat) : ∀ (layer : List Hash) (i : Nat),
    i < layer.length → layer.length ≤ fuel + 1 →
    computeRootAux fuel (proofHashesAux fuel layer i) i layer.length (layer.getD i []) =
      rootAuxFuel fuel layer := by
  induction fuel with
  | zero =>
    intro layer i hi hlen
    match layer, hi, hlen with
    | [x], hi, _ =>
      have hi0 : i = 0 := by simpa using Nat.lt_one_iff.mp (by simpa using hi)
      subst hi0
      rfl
    | x :: y :: rest, _, hlen => simp at hlen
  | succ fuel ih =>
    intro layer i hi hlen
    match layer, hi, hlen with
    | [x], hi, _ =>
      have hi0 : i = 0 := by simpa using Nat.lt_one_iff.mp (by simpa using hi)
      subst hi0
      rfl
    | x :: y :: rest, hi, hlen =>
      have hPlen : (parentLayer (x :: y :: rest)).length = (rest.length + 3) / 2 := by
        rw [parentLayer_length]
        simp
      have hlen' : rest.length + 2 ≤ fuel + 2 := by simpa using hlen
      have hfuel : (parentLayer (x :: y :: rest)).length ≤ fuel + 1 := by
        rw [hPlen]
        omega
      have hrhs : rootAuxFuel (fuel + 1) (x :: y :: rest)
          = rootAuxFuel fuel (parentLayer (x :: y :: rest)) := rfl
      have hilen : i < rest.length + 2 := by simpa using hi
      rcases Nat.even_or_odd i with ⟨q, hq⟩ | ⟨q, hq⟩
      · -- even index: the current node is a left child
        rw [show q + q = 2 * q from by ring] at hq
        subst hq
        by_cases hsib : 2 * q + 1 < rest.length + 2
        · -- the right sibling exists
          have hsib' : 2 * q + 1 < (x :: y :: rest).length := by
            simpa using hsib
          have hget : (x :: y :: rest)[(2 * q) ^^^ 1]? =
              some ((x :: y :: rest).getD (2 * q + 1) []) := by
            rw [two_mul_xor_one, List.getElem?_eq_getElem hsib', getD_eq_get hsib']
          have hstep : proofHashesAux (fuel + 1) (x :: y :: rest) (2 * q)
              = (x :: y :: rest).getD (2 * q + 1) []
                :: proofHashesAux fuel (parentLayer (x :: y :: rest)) (2 * q / 2) := by
            simp only [proofHashesAux]
            rw [hget]
            rfl
          have hq2 : 2 * q / 2 = q := by omega
          have hcomb : hasherHash ((x :: y :: rest).getD (2 * q) []
                ++ (x :: y :: rest).getD (2 * q + 1) [])
              = (parentLayer (x :: y :: rest)).getD q [] :=
            (parentLayer_getD_pair _ q hsib').symm
          rw [show (x :: y :: rest).length = rest.length + 2 from rfl, hstep, hq2, hrhs]
          simp only [computeRootAux]
          rw [two_mul_xor_one, if_pos hsib]
          rw [if_pos (by omega : 2 * q % 2 = 0)]
          rw [hq2, hcomb,
            show (rest.length + 3) / 2 = (parentLayer (x :: y :: rest)).length from hPlen.symm]
          exact ih (parentLayer (x :: y :: rest)) q (by rw [hPlen]; omega) hfuel
        · -- the current node is promoted: the layer length is odd, 2q+1
          have hodd : (x :: y :: rest).length = 2 * q + 1 := by
            simp only [List.length_cons]
            omega
          have hget : (x :: y :: rest)[(2 * q) ^^^ 1]? = none := by
            rw [two_mul_xor_one]
            exact List.getElem?_eq_none hodd.le
          have hstep : proofHashesAux (fuel + 1) (x :: y :: rest) (2 * q)
              = proofHashesAux fuel (parentLayer (x :: y :: rest)) (2 * q / 2) := by
            simp only [proofHashesAux]
            rw [hget]
            rfl
          have hq2 : 2 * q / 2 = q := by omega
          have hprom : (x :: y :: rest).getD (2 * q) []
              = (parentLayer (x :: y :: rest)).getD q [] :=
            (parentLayer_getD_promote _ q hodd).symm
          rw [show (x :: y :: rest).length = rest.length + 2 from rfl, hstep, hq2, hrhs]
          simp only [computeRootAux]
          rw [two_mul_xor_one, if_neg hsib, hq2, hprom,
            show (rest.length + 3) / 2 = (parentLayer (x :: y :: rest)).length from hPlen.symm]
          have hqlt : q < (parentLayer (x :: y :: rest)).length := by
            rw [hPlen]
            simp only [List.length_cons] at hodd
            omega
          exact ih (parentLayer (x :: y :: rest)) q hqlt hfuel
      · -- odd index: the current node is a right child; its sibling 2q exists
        subst hq
        have hsib' : 2 * q + 1 < (x :: y :: rest).length := by
          simp only [List.length_cons]
          omega
        have hsibl : 2 * q < (x :: y :: rest).length := by
          simp only [List.length_cons]
          omega
        have hget : (x :: y :: rest)[(2 * q + 1) ^^^ 1]? =
            some ((x :: y :: rest).getD (2 * q) []) := by
          rw [two_mul_add_one_xor_one, List.getElem?_eq_getElem hsibl, getD_eq_get hsibl]
        have hstep : proofHashesAux (fuel + 1) (x :: y :: rest) (2 * q + 1)
            = (x :: y :: rest).getD (2 * q) []
              :: proofHashesAux fuel (parentLayer (x :: y :: rest)) ((2 * q + 1) / 2) := by
          simp only [proofHashesAux]
          rw [hget]
          rfl
        have hq2 : (2 * q + 1) / 2 = q := by omega
        have hcomb : hasherHash ((x :: y :: rest).getD (2 * q) []
              ++ (x :: y :: rest).getD (2 * q + 1) [])
            = (parentLayer (x :: y :: rest)).getD q [] :=
          (parentLayer_getD_pair _ q hsib').symm
        rw [show (x :: y :: rest).length = rest.length + 2 from rfl, hstep, hq2, hrhs]
        simp only [computeRootAux]
        rw [if_pos (by rw [two_mul_add_one_xor_one]; omega : (2 * q + 1) ^^^ 1 < rest.length + 2)]
        rw [if_neg (by omega : ¬ (2 * q + 1) % 2 = 0)]
        rw [hq2, hcomb,
          show (rest.length + 3) / 2 = (parentLayer (x :: y :: rest)).length from hPlen.symm]
        exact ih (parentLayer (x :: y :: rest)) q (by rw [hPlen]; omega) hfuel

/-! ## Well-formedness of every hash the tree produces -/

/-- A well-formed 32-byte hash value. -/
def goodHash (h : Hash) : Prop := h.length = 32 ∧ ∀ x ∈ h, x < 256

theorem goodHash_hasherHash (data : List Nat) : goodHash (hasherHash data) :=
  ⟨sha256_length data, sha256_lt data⟩

theorem parentLayer_good : ∀ l : List Hash, (∀ h ∈ l, goodHash h) →
    ∀ h ∈ parentLayer l, goodHash h
  | [], _, h, hh => by simp [parentLayer] at hh
  | [x], hl, h, hh => by
    simp only [parentLayer, concatAndHash, List.mem_singleton] at hh
    subst hh
    exact hl _ (List.mem_singleton_self _)
  | x :: y :: rest, hl, h, hh => by
    simp only [parentLayer, concatAndHash, List.mem_cons] at hh
    rcases hh with rfl | hh
    · exact goodHash_hasherHash _
    · exact parentLayer_good rest (fun a ha => hl a (by simp [ha])) h hh

theorem rootAuxFuel_good (fuel : Nat) : ∀ (l : List Hash) (r : Hash),
    (∀ h ∈ l, goodHash h) → rootAuxFuel fuel l = some r → goodHash r := by
  induction fuel with
  | zero =>
    intro l r hl hr
    rcases l with _ | ⟨x, _ | ⟨y, rest⟩⟩
    · exact Option.noConfusion hr
    · rw [show rootAuxFuel 0 [x] = some x from rfl] at hr
      cases hr
      exact hl _ (List.mem_singleton_self _)
    · exact Option.noConfusion hr
  | succ fuel ih =>
    intro l r hl hr
    rcases l with _ | ⟨x, _ | ⟨y, rest⟩⟩
    · exact Option.noConfusion hr
    · rw [show rootAuxFuel (fuel + 1) [x] = some x from rfl] at hr
      cases hr
      exact hl _ (List.mem_singleton_self _)
    · exact ih (parentLayer (x :: y :: rest)) r (parentLayer_good _ hl) hr

theorem treeRoot_good {l : List Hash} {r : Hash} (hl : ∀ h ∈ l, goodHash h)
    (hr : treeRoot l = some r) : goodHash r :=
  rootAuxFuel_good l.length l r hl hr

theorem proofHashesAux_good (fuel : Nat) : ∀ (l : List Hash) (i : Nat),
    (∀ h ∈ l, goodHash h) → ∀ h ∈ proofHashesAux fuel l i, goodHash h := by
  induction fuel with
  | zero =>
    intro l i hl h hh
    rcases l with _ | ⟨x, _ | ⟨y, rest⟩⟩
    · simp [proofHashesAux] at hh
    · simp [proofHashesAux] at hh
    · simp [proofHashesAux] at hh
  | succ fuel ih =>
    intro l i hl h hh
    rcases l with _ | ⟨x, _ | ⟨y, rest⟩⟩
    · simp [proofHashesAux] at hh
    · simp [proofHashesAux] at hh
    · 
      simp only [proofHashesAux] at hh
      rcases List.mem_append.mp hh with hh | hh
      · cases hopt : (x :: y :: rest)[i ^^^ 1]? with
        | none => rw [hopt] at hh; simp at hh
        | some s =>
          rw [hopt] at hh
          simp only [List.mem_singleton] at hh
          subst hh
          obtain ⟨hlt, hget⟩ := List.getElem?_eq_some.mp hopt
          rw [← hget]
          exact hl _ (List.getElem_mem hlt)
      · exact ih (parentLayer (x :: y :: rest)) (i / 2) (parentLayer_good _ hl) h hh

/-! ## Serialization round trip for proofs -/

theorem splitHashesAux_flatten : ∀ (hs : List Hash) (fuel : Nat),
    (∀ h ∈ hs, h.length = 32) → hs.flatten.length ≤ fuel →
    splitHashesAux fuel hs.flatten = some hs := by
  intro hs
  induction hs with
  | nil =>
    intro fuel _ _
    match fuel with
    | 0 => rfl
    | fuel + 1 => rfl
  | cons h hs ih =>
    intro fuel hlen hfuel
    have hl : h.length = 32 := hlen h (List.mem_cons_self _ _)
    obtain ⟨b, hb, rfl⟩ : ∃ b t, h = b :: t := by
      match h, hl with
      | b :: t, _ => exact ⟨b, t, rfl⟩
    have hfl : ((b :: hb) :: hs).flatten = b :: (hb ++ hs.flatten) := by
      simp [List.flatten_cons]
    rw [hfl] at hfuel ⊢
    have hlenfl : (b :: (hb ++ hs.flatten)).length = 32 + hs.flatten.length := by
      simp only [List.length_cons, List.length_append]
      simp only [List.length_cons] at hl
      omega
    match fuel with
    | 0 =>
      exfalso
      simp only [List.length_cons] at hfuel
      omega
    | fuel + 1 =>
      have heq : (32 : Nat) = (b :: hb).length := by
        simp only [List.length_cons] at hl ⊢
        omega
      have hdrop : (b :: (hb ++ hs.flatten)).drop 32 = hs.flatten := by
        rw [show b :: (hb ++ hs.flatten) = (b :: hb) ++ hs.flatten from rfl, heq]
        exact List.drop_left _ _
      have htake : (b :: (hb ++ hs.flatten)).take 32 = b :: hb := by
        rw [show b :: (hb ++ hs.flatten) = (b :: hb) ++ hs.flatten from rfl, heq]
        exact List.take_left _ _
      rw [show splitHashesAux (fuel + 1) (b :: (hb ++ hs.flatten))
          = if (b :: (hb ++ hs.flatten)).length < 32 then none
            else match splitHashesAux fuel ((b :: (hb ++ hs.flatten)).drop 32) with
              | some tail => some ((b :: (hb ++ hs.flatten)).take 32 :: tail)
              | none => none
          from rfl]
      rw [if_neg (by omega), hdrop, htake,
        ih fuel (fun a ha => hlen a (List.mem_cons_of_mem _ ha)) (by omega)]

/-- Serialized proof bytes parse back to the hash list
(`MerkleProof::try_from ∘ MerkleProof::to_bytes`). -/
theorem proofFromBytes_toBytes (hs : List Hash) (hlen : ∀ h ∈ hs, h.length = 32) :
    proofFromBytes (proofToBytes hs) = some hs :=
  splitHashesAux_flatten hs hs.flatten.length hlen (by omega)

/-! ## First-match position under distinct keys -/

theorem findIdx?_start_aux : ∀ (l : List Backend.Row) (key : List Nat) (i start : Nat)
    (d : Backend.Row), i < l.length → (l.getD i d).1 = key →
    (∀ j, j < i → (l.getD j d).1 ≠ key) →
    List.findIdx? (fun p => p.1 == key) l start = some (start + i)
  | [], _, i, _, _, hi, _, _ => by simp at hi
  | p :: rest, key, 0, start, d, _, hkey, _ => by
    rw [List.getD_cons_zero] at hkey
    rw [List.findIdx?_cons, if_pos (beq_iff_eq.mpr hkey)]
    simp
  | p :: rest, key, i + 1, start, d, hi, hkey, huniq => by
    have hp : p.1 ≠ key := by
      have := huniq 0 (by omega)
      rwa [List.getD_cons_zero] at this
    rw [List.findIdx?_cons, if_neg (by simp [hp]),
      findIdx?_start_aux rest key i (start + 1) d (by simpa using hi)
        (by rwa [List.getD_cons_succ] at hkey)
        (fun j hj => by
          have := huniq (j + 1) (by omega)
          rwa [List.getD_cons_succ] at this)]
    congr 1
    omega

/-- With pairwise-distinct keys, the first row matching the key of the
row at position `i` is position `i` itself. -/
theorem getD_eq_get' {α : Type} {l : List α} {i : Nat} {d : α} (h : i < l.length) :
    l.getD i d = l[i] := by
  rw [List.getD_eq_getElem?_getD, List.getElem?_eq_getElem h]
  rfl

theorem findIdx?_nodup (l : List Backend.Row) (i : Nat) (d : Backend.Row)
    (hi : i < l.length) (hnodup : (l.map Prod.fst).Nodup) :
    List.findIdx? (fun p => p.1 == (l.getD i d).1) l = some i := by
  have huniq : ∀ j, j < i → (l.getD j d).1 ≠ (l.getD i d).1 := by
    intro j hj heq
    have hj' : j < l.length := by omega
    have hml : j < (l.map Prod.fst).length := by simpa using hj'
    have hmi : i < (l.map Prod.fst).length := by simpa using hi
    have hmap : (l.map Prod.fst)[j] = (l.map Prod.fst)[i] := by
      rw [List.getElem_map, List.getElem_map, ← getD_eq_get' hj', ← getD_eq_get' hi]
      exact heq
    have : j = i := (hnodup.getElem_inj_iff).mp hmap
    omega
  have := findIdx?_start_aux l (l.getD i d).1 i 0 d hi rfl huniq
  simpa using this

/-! ## Claim C5: round trip (corrected)

With duplicate identities the claim fails as stated: the proof generator
finds the *first* row with the requested wallet address, so the second
duplicate record's own expiration does not verify at the returned
position.  With pairwise-distinct identities the round trip holds for
every record. -/

/-- C5 counterexample: in the tree built over two records sharing an
identity, the record at position 1 is `(pkOnes, 2)`; generating "that
record's" inclusion proof returns position 0 (the first match), and
verifying with the build's root, the record's own identity and
expiration, the returned position and the total count yields `ok false`,
not `true`. -/
theorem claim_C5_counterexample :
    (Backend.build_tree_from_db dupRows).toOption.map (fun t =>
      (t.2.2.getD 1 ([], 0),
       (Backend.get_proof_for_user t.2.1 t.2.2 (t.2.2.getD 1 ([], 0)).1).map (fun q =>
         (q.2, (Backend.verify_subscription t.1 q.1 (t.2.2.getD 1 ([], 0)).1
            (t.2.2.getD 1 ([], 0)).2 q.2 t.2.2.length).toOption))))
      = some ((pkOnes, 2), some (0, some false)) := by decide

/-- C5 amended: for every nonempty record sequence with decodable,
pairwise-distinct identities, and every record of the built tree
(position `i` of the returned ordered records), generating that record's
inclusion proof returns the proof and position `i`, and verifying it with
the build's root hex, the record's own identity and expiration, the
returned position and the total leaf count answers `ok true`. -/
theorem claim_C5_roundtrip (rows : List Backend.Row) (hne : rows ≠ [])
    (hdec : ∀ p ∈ rows, ∃ k, bs58Decode p.1 = some k ∧ k.length = 32)
    (hnodup : (rows.map Prod.fst).Nodup) :
    ∃ rootHex tree sorted, Backend.build_tree_from_db rows = .ok (rootHex, tree, sorted) ∧
      ∀ i, i < sorted.length →
        ∃ pb, Backend.get_proof_for_user tree sorted (sorted.getD i ([], 0)).1
            = some (pb, i) ∧
          Backend.verify_subscription rootHex pb (sorted.getD i ([], 0)).1
            (sorted.getD i ([], 0)).2 i sorted.length = .ok true := by
  obtain ⟨root, hroot, hbuild⟩ := build_tree_ok rows hne hdec
  have hperm : (Backend.sortSubscribers rows).Perm rows :=
    List.perm_insertionSort Backend.rowLe rows
  have hnodS : ((Backend.sortSubscribers rows).map Prod.fst).Nodup :=
    ((hperm.map Prod.fst).nodup_iff).mpr hnodup
  have hgoodL : ∀ h ∈ (Backend.sortSubscribers rows).map leafValue, goodHash h := by
    intro h hh
    obtain ⟨p, _, rfl⟩ := List.mem_map.mp hh
    exact goodHash_hasherHash _
  have hgoodRoot : goodHash root := treeRoot_good hgoodL hroot
  refine ⟨_, _, _, hbuild, ?_⟩
  intro i hi
  have hiS : i < (Backend.sortSubscribers rows).length := hi
  have hiL : i < ((Backend.sortSubscribers rows).map leafValue).length := by
    simpa using hiS
  have hmem : (Backend.sortSubscribers rows).getD i ([], 0) ∈ rows := by
    apply hperm.mem_iff.mp
    rw [getD_eq_get' hiS]
    exact List.getElem_mem hiS
  obtain ⟨k, hk, hkl⟩ := hdec _ hmem
  have hfind : List.findIdx?
      (fun p => p.1 == ((Backend.sortSubscribers rows).getD i ([], 0)).1)
      (Backend.sortSubscribers rows) = some i :=
    findIdx?_nodup _ i _ hiS hnodS
  have hproof : Backend.get_proof_for_user
      ⟨(Backend.sortSubscribers rows).map leafValue⟩ (Backend.sortSubscribers rows)
      ((Backend.sortSubscribers rows).getD i ([], 0)).1
      = some (proofToBytes (proofHashesAux
          ((Backend.sortSubscribers rows).map leafValue).length
          ((Backend.sortSubscribers rows).map leafValue) i), i) := by
    unfold Backend.get_proof_for_user
    rw [hfind]
  refine ⟨_, hproof, ?_⟩
  have hgoodProof : ∀ h ∈ proofHashesAux
      ((Backend.sortSubscribers rows).map leafValue).length
      ((Backend.sortSubscribers rows).map leafValue) i, goodHash h :=
    proofHashesAux_good _ _ i hgoodL
  have hsplit : proofFromBytes (proofToBytes (proofHashesAux
      ((Backend.sortSubscribers rows).map leafValue).length
      ((Backend.sortSubscribers rows).map leafValue) i))
      = some (proofHashesAux
          ((Backend.sortSubscribers rows).map leafValue).length
          ((Backend.sortSubscribers rows).map leafValue) i) :=
    proofFromBytes_toBytes _ (fun h hh => (hgoodProof h hh).1)
  have hleaf : ((Backend.sortSubscribers rows).map leafValue).getD i []
      = hasherHash (k ++ i64ToLeBytes ((Backend.sortSubscribers rows).getD i ([], 0)).2) := by
    rw [getD_eq_get hiL, List.getElem_map, ← getD_eq_get' hiS]
    unfold leafValue
    rw [hk]
    rfl
  have hver : proofVerify
      (proofHashesAux ((Backend.sortSubscribers rows).map leafValue).length
        ((Backend.sortSubscribers rows).map leafValue) i)
      root i (Backend.sortSubscribers rows).length
      (((Backend.sortSubscribers rows).map leafValue).getD i []) = true := by
    unfold proofVerify computeRootFromProof
    have hlen_eq : (Backend.sortSubscribers rows).length
        = ((Backend.sortSubscribers rows).map leafValue).length := by
      rw [List.length_map]
    rw [hlen_eq,
      computeRoot_proofHashes ((Backend.sortSubscribers rows).map leafValue).length
        ((Backend.sortSubscribers rows).map leafValue) i hiL (by omega),
      show rootAuxFuel ((Backend.sortSubscribers rows).map leafValue).length
          ((Backend.sortSubscribers rows).map leafValue)
        = treeRoot ((Backend.sortSubscribers rows).map leafValue) from rfl,
      hroot]
    exact beq_self_eq_true root
  simp only [Backend.verify_subscription, hexDecode_hexEncode root hgoodRoot.2,
    if_neg (show ¬ root.length ≠ 32 from fun h => h hgoodRoot.1), hsplit, hk,
    if_neg (show ¬ k.length ≠ 32 from fun h => h hkl)]
  rw [← hleaf, hver]

/-- Witness for the amended C5 theorem on two distinct records given in
unsorted order. -/
theorem claim_C5_witness :
    ([(pkThree, (200 : Int)), (pkTwo, 100)] : List Backend.Row) ≠ [] ∧
    (([(pkThree, (200 : Int)), (pkTwo, 100)] : List Backend.Row).map Prod.fst).Nodup ∧
    (∃ rootHex tree sorted,
      Backend.build_tree_from_db [(pkThree, (200 : Int)), (pkTwo, 100)]
        = .ok (rootHex, tree, sorted) ∧
      ∀ i, i < sorted.length →
        ∃ pb, Backend.get_proof_for_user tree sorted (sorted.getD i ([], 0)).1
            = some (pb, i) ∧
          Backend.verify_subscription rootHex pb (sorted.getD i ([], 0)).1
            (sorted.getD i ([], 0)).2 i sorted.length = .ok true) :=
  ⟨by decide, by decide,
    claim_C5_roundtrip _ (by decide)
      (fun p hp => by
        fin_cases hp
        · exact ⟨List.replicate 31 0 ++ [2], by decide, by decide⟩
        · exact ⟨List.replicate 31 0 ++ [1], by decide, by decide⟩)
      (by decide)⟩

/-! ## Claim C9: the three-record scenario (corrected)

Position 2 and verification against exactly the build's root are as
claimed, but the proof for the last record of three leaves contains
exactly ONE sibling hash, not two: leaf 2 is promoted unchanged at level 0
(odd-node rule), so only the level-1 sibling — the hash of leaves 0 and
1 — appears. -/

theorem bytesLe_of_lt {x y : List Nat} (h : bytesLt x y = true) : bytesLe x y = true := by
  unfold bytesLe
  rw [bytesLt_asymm _ _ h]
  rfl

theorem bytesNe_of_lt {x y : List Nat} (h : bytesLt x y = true) : x ≠ y := by
  intro heq
  subst heq
  rw [bytesLt_irrefl] at h
  cases h

/-- C9 counterexample: with three concrete records sorting ascending, the
proof for the third returns position 2 but carries 32 proof bytes — one
sibling hash — where the claim predicted exactly two sibling hashes. -/
theorem claim_C9_counterexample :
    (Backend.build_tree_from_db [(pkTwo, (100 : Int)), (pkThree, 200), (pkFour, 300)]).toOption.map
      (fun t => (Backend.get_proof_for_user t.2.1 t.2.2 pkFour).map
        (fun q => (q.1.length, q.2)))
      = some (some (32, 2)) := by decide

/-- C9 amended: for any three records whose identities sort strictly
ascending as `[a, b, c]` (all decodable), the build succeeds with leaves
`[leaf a, leaf b, leaf c]`; the inclusion proof for `c` has position 2
and exactly one 32-byte sibling hash — the hash of the first two leaves,
per the odd-node promotion rule — and verifying it answers `ok true`
against the build's root and `ok false` against every other 32-byte
value. -/
theorem treeRoot_three (x y z : Hash) :
    treeRoot [x, y, z] = some (hasherHash (hasherHash (x ++ y) ++ z)) := rfl

theorem proofHashesAux_three (x y z : Hash) :
    proofHashesAux 3 [x, y, z] 2 = [hasherHash (x ++ y)] := rfl

theorem proofVerify_three (w z r : Hash) :
    proofVerify [w] r 2 3 z = (hasherHash (w ++ z) == r) := rfl

theorem claim_C9_three_records (a b c : Backend.Row)
    (hab : bytesLt a.1 b.1 = true) (hbc : bytesLt b.1 c.1 = true)
    (hdec : ∀ p ∈ [a, b, c], ∃ k, bs58Decode p.1 = some k ∧ k.length = 32) :
    ∃ pb root,
      Backend.build_tree_from_db [a, b, c] =
        .ok (hexEncode root, ⟨[leafValue a, leafValue b, leafValue c]⟩, [a, b, c]) ∧
      root = hasherHash (hasherHash (leafValue a ++ leafValue b) ++ leafValue c) ∧
      Backend.get_proof_for_user ⟨[leafValue a, leafValue b, leafValue c]⟩ [a, b, c] c.1
        = some (pb, 2) ∧
      pb = hasherHash (leafValue a ++ leafValue b) ∧ pb.length = 32 ∧
      Backend.verify_subscription (hexEncode root) pb c.1 c.2 2 3 = .ok true ∧
      (∀ root' : Hash, root'.length = 32 → (∀ x ∈ root', x < 256) → root' ≠ root →
        Backend.verify_subscription (hexEncode root') pb c.1 c.2 2 3 = .ok false) := by
  have hac : bytesLt a.1 c.1 = true := bytesLt_trans _ _ _ hab hbc
  have hsorted : List.Sorted Backend.rowLe [a, b, c] := by
    refine List.sorted_cons.mpr ⟨?_, List.sorted_cons.mpr ⟨?_, List.sorted_singleton _⟩⟩
    · intro q hq
      rcases List.mem_cons.mp hq with rfl | hq
      · exact bytesLe_of_lt hab
      · rw [List.mem_singleton.mp hq]
        exact bytesLe_of_lt hac
    · intro q hq
      rw [List.mem_singleton.mp hq]
      exact bytesLe_of_lt hbc
  have hsort_eq : Backend.sortSubscribers [a, b, c] = [a, b, c] :=
    List.Sorted.insertionSort_eq hsorted
  obtain ⟨root, hroot, hbuild⟩ := build_tree_ok [a, b, c] (by simp) hdec
  rw [hsort_eq] at hroot hbuild
  simp only [List.map_cons, List.map_nil] at hroot hbuild
  have hrootval := treeRoot_three (leafValue a) (leafValue b) (leafValue c)
  have hrootR : root = hasherHash (hasherHash (leafValue a ++ leafValue b) ++ leafValue c) :=
    (Option.some.inj (hrootval.symm.trans hroot)).symm
  have hfind : List.findIdx? (fun p => p.1 == c.1) [a, b, c] = some 2 := by
    rw [List.findIdx?_cons,
      if_neg (show ¬ (a.1 == c.1) = true by
        rw [beq_eq_false_iff_ne.mpr (bytesNe_of_lt hac)]
        exact Bool.false_ne_true),
      List.findIdx?_cons,
      if_neg (show ¬ (b.1 == c.1) = true by
        rw [beq_eq_false_iff_ne.mpr (bytesNe_of_lt hbc)]
        exact Bool.false_ne_true),
      List.findIdx?_cons, if_pos (beq_self_eq_true c.1)]
  have hph := proofHashesAux_three (leafValue a) (leafValue b) (leafValue c)
  have hpb : proofToBytes (proofHashesAux 3 [leafValue a, leafValue b, leafValue c] 2)
      = hasherHash (leafValue a ++ leafValue b) := by
    rw [hph]
    simp [proofToBytes]
  have hproof : Backend.get_proof_for_user
      ⟨[leafValue a, leafValue b, leafValue c]⟩ [a, b, c] c.1
      = some (hasherHash (leafValue a ++ leafValue b), 2) := by
    unfold Backend.get_proof_for_user
    rw [hfind]
    show some (proofToBytes (proofHashesAux 3 [leafValue a, leafValue b, leafValue c] 2), 2)
      = some (hasherHash (leafValue a ++ leafValue b), 2)
    rw [hpb]
  obtain ⟨kc, hkc, hkcl⟩ := hdec c (by simp)
  have hleafc : leafValue c = hasherHash (kc ++ i64ToLeBytes c.2) := by
    unfold leafValue
    rw [hkc]
    rfl
  have hgoodR : goodHash root := by
    rw [hrootR]
    exact goodHash_hasherHash _
  have hsplitpb : proofFromBytes (hasherHash (leafValue a ++ leafValue b))
      = some [hasherHash (leafValue a ++ leafValue b)] := by
    have := proofFromBytes_toBytes [hasherHash (leafValue a ++ leafValue b)]
      (by intro h hh; rw [List.mem_singleton.mp hh]; exact sha256_length _)
    rwa [show proofToBytes [hasherHash (leafValue a ++ leafValue b)]
        = hasherHash (leafValue a ++ leafValue b) from by simp [proofToBytes]] at this
  refine ⟨_, root, hbuild, hrootR, hproof, rfl, sha256_length _, ?_, ?_⟩
  · -- verification against the build's root
    simp only [Backend.verify_subscription, hexDecode_hexEncode root hgoodR.2,
      if_neg (show ¬ root.length ≠ 32 from fun h => h hgoodR.1),
      hsplitpb, hkc, if_neg (show ¬ kc.length ≠ 32 from fun h => h hkcl)]
    rw [← hleafc, proofVerify_three, ← hrootR, beq_self_eq_true]
  · -- rejection of every other root
    intro root' hlen' hbytes' hne'
    simp only [Backend.verify_subscription, hexDecode_hexEncode root' hbytes',
      if_neg (show ¬ root'.length ≠ 32 from fun h => h hlen'),
      hsplitpb, hkc, if_neg (show ¬ kc.length ≠ 32 from fun h => h hkcl)]
    rw [← hleafc, proofVerify_three, ← hrootR,
      beq_eq_false_iff_ne.mpr (fun h => hne' h.symm)]

/-- Witness for the amended C9 theorem at three concrete records. -/
theorem claim_C9_witness :
    bytesLt (pkTwo, (100 : Int)).1 (pkThree, (200 : Int)).1 = true ∧
    bytesLt (pkThree, (200 : Int)).1 (pkFour, (300 : Int)).1 = true ∧
    (∃ pb root,
      Backend.build_tree_from_db [(pkTwo, (100 : Int)), (pkThree, 200), (pkFour, 300)] =
        .ok (hexEncode root,
          ⟨[leafValue (pkTwo, 100), leafValue (pkThree, 200), leafValue (pkFour, 300)]⟩,
          [(pkTwo, 100), (pkThree, 200), (pkFour, 300)]) ∧
      root = hasherHash (hasherHash (leafValue (pkTwo, 100) ++ leafValue (pkThree, 200))
        ++ leafValue (pkFour, 300)) ∧
      Backend.get_proof_for_user
        ⟨[leafValue (pkTwo, 100), leafValue (pkThree, 200), leafValue (pkFour, 300)]⟩
        [(pkTwo, 100), (pkThree, 200), (pkFour, 300)] (pkFour, (300 : Int)).1
        = some (pb, 2) ∧
      pb = hasherHash (leafValue (pkTwo, 100) ++ leafValue (pkThree, 200)) ∧ pb.length = 32 ∧
      Backend.verify_subscription (hexEncode root) pb (pkFour, (300 : Int)).1
        (pkFour, (300 : Int)).2 2 3 = .ok true ∧
      (∀ root' : Hash, root'.length = 32 → (∀ x ∈ root', x < 256) → root' ≠ root →
        Backend.verify_subscription (hexEncode root') pb (pkFour, (300 : Int)).1
          (pkFour, (300 : Int)).2 2 3 = .ok false)) :=
  ⟨by decide, by decide,
    claim_C9_three_records (pkTwo, 100) (pkThree, 200) (pkFour, 300) (by decide) (by decide)
      (fun p hp => by
        fin_cases hp
        · exact ⟨List.replicate 31 0 ++ [1], by decide, by decide⟩
        · exact ⟨List.replicate 31 0 ++ [2], by decide, by decide⟩
        · exact ⟨List.replicate 31 0 ++ [3], by decide, by decide⟩)⟩

end MerkleSub
